import Mathlib

/-!
Verification of the gpterm streaming response assembler.

Shallow embedding of `src/main.rs` (azvaliev/gpterm): the SSE frame
splitter, partial-frame buffer, frame decoder (serde_json model) and
conversation assembler, plus the surrounding input loop and transport
error handling.  Strings are modelled as `List Char`; Rust's byte-length
`str::len` is modelled by UTF-8 byte size.
-/

namespace Gpterm

/-- Rust enum MessageRole from main.rs (serde lowercase). -/
inductive MessageRole where
  | user
  | assistant
deriving DecidableEq, Repr

/-- Rust struct Message from main.rs: id (serde-skipped), role, content. -/
structure Message where
  id : List Char
  role : MessageRole
  content : List Char
deriving DecidableEq, Repr

/-- Rust struct CompletionDelta from main.rs: optional content and role. -/
structure CompletionDelta where
  content : Option (List Char)
  role : Option MessageRole
deriving DecidableEq, Repr

/-- Rust struct CompletionChoice from main.rs. -/
structure CompletionChoice where
  delta : CompletionDelta
deriving DecidableEq, Repr

/-- Rust struct CompletionResponse from main.rs: id and choices. -/
structure CompletionResponse where
  id : List Char
  choices : List CompletionChoice
deriving DecidableEq, Repr

/-- UTF-8 byte size of one char (models Rust `str::len` contribution). -/
def charBytes (c : Char) : Nat :=
  if c.toNat < 128 then 1
  else if c.toNat < 2048 then 2
  else if c.toNat < 65536 then 3
  else 4

/-- UTF-8 byte length of a string (Rust `str::len`). -/
def byteLen (s : List Char) : Nat :=
  (s.map charBytes).sum

/-- Rust `str::replace("data: ", "")`: removes every (leftmost,
non-overlapping) occurrence of the 6-char pattern. -/
def stripData : List Char → List Char
  | 'd' :: 'a' :: 't' :: 'a' :: ':' :: ' ' :: rest => stripData rest
  | c :: rest => c :: stripData rest
  | [] => []

/-- Does the string contain two consecutive newlines? -/
def hasNN : List Char → Bool
  | [] => false
  | [_] => false
  | a :: b :: rest => (a = '\n' && b = '\n') || hasNN (b :: rest)

/-- Worker for splitting on the `"\n\n"` frame delimiter. -/
def splitNNAux (acc : List Char) : List Char → List (List Char)
  | [] => [acc]
  | [c] => [acc ++ [c]]
  | a :: b :: rest =>
    if a = '\n' ∧ b = '\n' then acc :: splitNNAux [] rest
    else splitNNAux (acc ++ [a]) (b :: rest)

/-- Rust `str::split("\n\n")`. -/
def splitNN (s : List Char) : List (List Char) :=
  splitNNAux [] s

/-! JSON parser: model of `serde_json::from_str` -/

/-- JSON whitespace characters. -/
def isWsChar (c : Char) : Bool :=
  c = ' ' || c = '\n' || c = '\t' || c = '\r'

/-- Skip leading JSON whitespace. -/
def skipWs : List Char → List Char
  | c :: rest => if isWsChar c then skipWs rest else c :: rest
  | [] => []

/-- JSON document tree (numbers kept as raw text: the decoder for
`CompletionResponse` never reads a number). -/
inductive Json where
  | str (s : List Char)
  | num (raw : List Char)
  | bool (b : Bool)
  | null
  | arr (elems : List Json)
  | obj (fields : List (List Char × Json))

/-- Hexadecimal digit value. -/
def hexVal (c : Char) : Option Nat :=
  if '0' ≤ c ∧ c ≤ '9' then some (c.toNat - 48)
  else if 'a' ≤ c ∧ c ≤ 'f' then some (c.toNat - 87)
  else if 'A' ≤ c ∧ c ≤ 'F' then some (c.toNat - 55)
  else none

/-- One-character string escapes. -/
def escChar (e : Char) : Option Char :=
  if e = '"' then some '"'
  else if e = '\\' then some '\\'
  else if e = '/' then some '/'
  else if e = 'n' then some '\n'
  else if e = 't' then some '\t'
  else if e = 'r' then some '\r'
  else if e = 'b' then some (Char.ofNat 8)
  else if e = 'f' then some (Char.ofNat 12)
  else none

/-- Parse a JSON string body (input starts after the opening quote);
returns content and the rest after the closing quote.  Unicode escapes
follow serde_json: a high surrogate must be followed by a low-surrogate
escape and the pair decodes to one character; lone surrogates are an
error. -/
def pStringBody : Nat → List Char → Option (List Char × List Char)
  | 0, _ => none
  | _, [] => none
  | fuel + 1, c :: rest =>
    if c = '"' then some ([], rest)
    else if c = '\\' then
      match rest with
      | [] => none
      | e :: rest2 =>
        if e = 'u' then
          match rest2 with
          | h1 :: h2 :: h3 :: h4 :: rest3 =>
            match hexVal h1, hexVal h2, hexVal h3, hexVal h4 with
            | some a, some b, some c3, some d =>
              let n := ((a * 16 + b) * 16 + c3) * 16 + d
              if 0xD800 ≤ n ∧ n ≤ 0xDBFF then
                match rest3 with
                | '\\' :: 'u' :: e1 :: e2 :: e3 :: e4 :: rest4 =>
                  match hexVal e1, hexVal e2, hexVal e3, hexVal e4 with
                  | some a2, some b2, some g2, some d2 =>
                    let m := ((a2 * 16 + b2) * 16 + g2) * 16 + d2
                    if 0xDC00 ≤ m ∧ m ≤ 0xDFFF then
                      (pStringBody fuel rest4).map (fun p =>
                        (Char.ofNat (0x10000 + (n - 0xD800) * 0x400 + (m - 0xDC00)) :: p.1,
                          p.2))
                    else none
                  | _, _, _, _ => none
                | _ => none
              else if 0xDC00 ≤ n ∧ n ≤ 0xDFFF then none
              else (pStringBody fuel rest3).map (fun p => (Char.ofNat n :: p.1, p.2))
            | _, _, _, _ => none
          | _ => none
        else
          match escChar e with
          | some d => (pStringBody fuel rest2).map (fun p => (d :: p.1, p.2))
          | none => none
    else if c.toNat < 32 then none
    else (pStringBody fuel rest).map (fun p => (c :: p.1, p.2))

/-- Take a maximal run of decimal digits. -/
def takeDigits : List Char → (List Char × List Char)
  | c :: rest =>
    if c.isDigit then
      let p := takeDigits rest
      (c :: p.1, p.2)
    else ([], c :: rest)
  | [] => ([], [])

/-- Parse an optional fraction part. -/
def pFrac (acc : List Char) (s : List Char) : Option (List Char × List Char) :=
  match s with
  | '.' :: r =>
    match takeDigits r with
    | ([], _) => none
    | (ds, r2) => some (acc ++ '.' :: ds, r2)
  | _ => some (acc, s)

/-- Parse an optional exponent part. -/
def pExp (acc : List Char) (s : List Char) : Option (List Char × List Char) :=
  match s with
  | c :: r =>
    if c = 'e' ∨ c = 'E' then
      let sgnR :=
        match r with
        | '+' :: r2 => (['+'], r2)
        | '-' :: r2 => (['-'], r2)
        | _ => (([] : List Char), r)
      match takeDigits sgnR.2 with
      | ([], _) => none
      | (ds, r2) => some (acc ++ c :: (sgnR.1 ++ ds), r2)
    else some (acc, s)
  | [] => some (acc, s)

/-- Parse a JSON number (lexically; value kept raw). -/
def pNumber (s : List Char) : Option (List Char × List Char) :=
  let negS :=
    match s with
    | '-' :: r => ((['-'] : List Char), r)
    | _ => ([], s)
  match negS.2 with
  | c :: rest =>
    if c = '0' then
      (pFrac (negS.1 ++ [c]) rest).bind (fun p => pExp p.1 p.2)
    else if c.isDigit then
      match takeDigits rest with
      | (ds, r) => (pFrac (negS.1 ++ c :: ds) r).bind (fun p => pExp p.1 p.2)
    else none
  | [] => none

mutual

/-- Parse one JSON value (fuelled recursive descent). -/
def pValue : Nat → List Char → Option (Json × List Char)
  | 0, _ => none
  | fuel + 1, input =>
    match skipWs input with
    | [] => none
    | c :: rest =>
      if c = '"' then (pStringBody fuel rest).map (fun p => (.str p.1, p.2))
      else if c = '{' then
        match skipWs rest with
        | '}' :: rest2 => some (.obj [], rest2)
        | rest2 => (pMembers fuel rest2).map (fun p => (.obj p.1, p.2))
      else if c = '[' then
        match skipWs rest with
        | ']' :: rest2 => some (.arr [], rest2)
        | rest2 => (pElems fuel rest2).map (fun p => (.arr p.1, p.2))
      else if c = 't' then
        match rest with
        | 'r' :: 'u' :: 'e' :: rest2 => some (.bool true, rest2)
        | _ => none
      else if c = 'f' then
        match rest with
        | 'a' :: 'l' :: 's' :: 'e' :: rest2 => some (.bool false, rest2)
        | _ => none
      else if c = 'n' then
        match rest with
        | 'u' :: 'l' :: 'l' :: rest2 => some (.null, rest2)
        | _ => none
      else
        (pNumber (c :: rest)).map (fun p => (.num p.1, p.2))

/-- Parse object members (input at the quote of the first key). -/
def pMembers : Nat → List Char → Option (List (List Char × Json) × List Char)
  | 0, _ => none
  | fuel + 1, input =>
    match input with
    | '"' :: rest =>
      match pStringBody fuel rest with
      | none => none
      | some (key, rest1) =>
        match skipWs rest1 with
        | ':' :: rest2 =>
          match pValue fuel rest2 with
          | none => none
          | some (v, rest3) =>
            match skipWs rest3 with
            | ',' :: rest4 =>
              (pMembers fuel (skipWs rest4)).map (fun p => ((key, v) :: p.1, p.2))
            | '}' :: rest4 => some ([(key, v)], rest4)
            | _ => none
        | _ => none
    | _ => none

/-- Parse array elements (input at the first element). -/
def pElems : Nat → List Char → Option (List Json × List Char)
  | 0, _ => none
  | fuel + 1, input =>
    match pValue fuel input with
    | none => none
    | some (v, rest) =>
      match skipWs rest with
      | ',' :: rest2 => (pElems fuel rest2).map (fun p => (v :: p.1, p.2))
      | ']' :: rest2 => some ([v], rest2)
      | _ => none

end

/-- Parse a whole input as one JSON document (trailing whitespace only),
modelling `serde_json::from_str`'s framing. -/
def parseJson (s : List Char) : Option Json :=
  match pValue (2 * s.length + 16) s with
  | some (v, rest) => if skipWs rest = [] then some v else none
  | none => none

/-! Deserialization into `CompletionResponse` (serde derive model) -/

/-- Look a key up among an object's fields. -/
def jLookup (fields : List (List Char × Json)) (key : List Char) : Option Json :=
  match fields with
  | [] => none
  | (k, v) :: rest => if k = key then some v else jLookup rest key

/-- A serde `Option<String>` field: missing or `null` gives `none`;
a string gives `some`; any other value is an error. -/
def deContent : Option Json → Option (Option (List Char))
  | none => some none
  | some .null => some none
  | some (.str s) => some (some s)
  | some _ => none

/-- A serde `Option<MessageRole>` field (lowercase rename). -/
def deRoleField : Option Json → Option (Option MessageRole)
  | none => some none
  | some .null => some none
  | some (.str s) =>
    if s = "user".data then some (some .user)
    else if s = "assistant".data then some (some .assistant)
    else none
  | some _ => none

/-- Deserialize a `CompletionDelta` object. -/
def deDelta : Json → Option CompletionDelta
  | .obj fs => do
    let c ← deContent (jLookup fs "content".data)
    let r ← deRoleField (jLookup fs "role".data)
    pure ⟨c, r⟩
  | _ => none

/-- Deserialize a `CompletionChoice` (the `delta` field is required). -/
def deChoice : Json → Option CompletionChoice
  | .obj fs => do
    let d ← (jLookup fs "delta".data).bind deDelta
    pure ⟨d⟩
  | _ => none

/-- Deserialize the `choices` array. -/
def deChoices : Json → Option (List CompletionChoice)
  | .arr xs => xs.mapM deChoice
  | _ => none

/-- Deserialize a `CompletionResponse` (`id` string and `choices`
array are required; unknown fields ignored). -/
def deResponse : Json → Option CompletionResponse
  | .obj fs => do
    let i ←
      match jLookup fs "id".data with
      | some (.str s) => some s
      | _ => none
    let cs ← (jLookup fs "choices".data).bind deChoices
    pure ⟨i, cs⟩
  | _ => none

/-- Model of `serde_json::from_str::<CompletionResponse>`. -/
def parseCompletion (s : List Char) : Option CompletionResponse :=
  (parseJson s).bind deResponse

/-! Conversation assembler (main.rs lines 147-164) -/

/-- One merge of a decoded `(chat_id, delta)` into the conversation:
if the last message carries `chat_id` it is popped and extended,
otherwise a fresh message is created; either way the grown message is
pushed back as the new last element. -/
def assemble (conv : List Message) (chatId : List Char) (delta : CompletionDelta) :
    List Message :=
  let msg : Message :=
    match conv.getLast? with
    | some m =>
      if m.id = chatId then m
      else ⟨chatId, delta.role.getD .assistant, []⟩
    | none => ⟨chatId, delta.role.getD .assistant, []⟩
  let conv1 : List Message :=
    match conv.getLast? with
    | some m => if m.id = chatId then conv.dropLast else conv
    | none => conv
  conv1 ++ [{ msg with content := msg.content ++ delta.content.getD [] }]

/-- Fold a sequence of same-turn deltas, grouped into chunks as the
splitter delivered them, through the assembler. -/
def assembleChunks (conv : List Message) (chatId : List Char)
    (chunks : List (List CompletionDelta)) : List Message :=
  chunks.foldl (fun c ds => ds.foldl (fun c' d => assemble c' chatId d) c) conv

/-! Chunk processing loop (main.rs lines 119-166) -/

/-- Loop state: the conversation and the partial-frame buffer
(`partial_message` in main.rs). -/
structure State where
  conversation : List Message
  pending : List Char
deriving DecidableEq, Repr

/-- The sentinel text `"[DONE]"`. -/
def sentinel : List Char := "[DONE]".data

/-- Rust `str::contains(pat)`: substring test. -/
def hasSub (pat : List Char) : List Char → Bool
  | [] => pat.isEmpty
  | c :: rest => pat.isPrefixOf (c :: rest) || hasSub pat rest

/-- The frame-candidate filter of main.rs line 124:
`r.len() > 6 && !r.contains("[DONE]")` (byte length; substring test). -/
def keepCandidate (r : List Char) : Bool :=
  byteLen r > 6 && !(hasSub sentinel r)

/-- Frame Splitter: split a chunk on `"\n\n"` and filter candidates
(main.rs lines 121-124). Pure function of the chunk. -/
def splitChunk (chunk : List Char) : List (List Char) :=
  (splitNN chunk).filter keepCandidate

/-- The text handed to the decoder for one candidate: the SSE-prefix
replacement, with the partial buffer prepended when this is the first
candidate of the chunk and the buffer is nonempty (lines 127-131). -/
def candidateInput (pending : List Char) (idx : Nat) (cand : List Char) : List Char :=
  let s := stripData cand
  if pending ≠ [] ∧ idx = 0 then pending ++ s else s

/-- Result of handling one frame candidate. -/
inductive StepOut where
  | ok (st : State)
  | halt (st : State)
  | panicked
deriving DecidableEq, Repr

/-- Handle one frame candidate (main.rs lines 126-164): decode, then
either merge the delta (clearing the buffer), or append the undecoded
text to the buffer and `break`. `choices.remove(0)` on an empty
`choices` vector panics (`panicked`). -/
def stepCandidate (st : State) (idx : Nat) (cand : List Char) : StepOut :=
  match parseCompletion (candidateInput st.pending idx cand) with
  | some r =>
    match r.choices with
    | [] => .panicked
    | ch :: _ => .ok ⟨assemble st.conversation r.id ch.delta, []⟩
  | none => .halt ⟨st.conversation, st.pending ++ candidateInput st.pending idx cand⟩

/-- Process a chunk's filtered candidates in order, `break`-ing on the
first decode failure; `none` models a process panic. -/
def processCands (st : State) (idx : Nat) : List (List Char) → Option State
  | [] => some st
  | cand :: rest =>
    match stepCandidate st idx cand with
    | .ok st' => processCands st' (idx + 1) rest
    | .halt st' => some st'
    | .panicked => none

/-- Process one raw chunk from the byte stream. -/
def processChunk (st : State) (chunk : List Char) : Option State :=
  processCands st 0 (splitChunk chunk)

/-- Process a list of raw chunks in arrival order. -/
def processChunks (st : State) : List (List Char) → Option State
  | [] => some st
  | c :: rest => (processChunk st c).bind (fun st' => processChunks st' rest)

/-- One item of the byte stream: a chunk or a transport error
(`Result<Bytes, reqwest::Error>`). -/
abbrev StreamItem := Except Unit (List Char)

/-- The stream loop (while let Some(Ok(raw_res)) in main.rs):
stops silently at the first error item or at end of stream. -/
def processStream (st : State) : List StreamItem → Option State
  | [] => some st
  | .error _ :: _ => some st
  | .ok chunk :: rest => (processChunk st chunk).bind (fun st' => processStream st' rest)

/-! Transport errors and one request/response turn -/

/-- Rust enum CompletionError from main.rs. -/
inductive CompletionError where
  | requestSerialize
  | unauthorized
  | outOfTokens
  | unknownRequest
deriving DecidableEq, Repr

/-- The status-code mapping of `get_completion` (main.rs lines 353-359). -/
def completionErrorOfStatus : Option Nat → CompletionError
  | some 401 => .unauthorized
  | some 429 => .outOfTokens
  | _ => .unknownRequest

/-- Outcome of one turn of the main loop after the user submits. -/
inductive TurnResult where
  | completed (conv : List Message) (pending : List Char)
  | crashed (e : CompletionError) (conv : List Message)
  | panicked
deriving DecidableEq, Repr

/-- One turn of the main loop (main.rs lines 107-166): push the user
message, open the stream — `get_completion(..).await.unwrap()` panics
on a transport error (`crashed`) — then consume the byte stream. -/
def runTurn (conv : List Message) (uid utext : List Char)
    (stream : Except CompletionError (List StreamItem)) : TurnResult :=
  let conv1 := conv ++ [⟨uid, .user, utext⟩]
  match stream with
  | .error e => .crashed e conv1
  | .ok items =>
    match processStream ⟨conv1, []⟩ items with
    | some st => .completed st.conversation st.pending
    | none => .panicked

/-! Terminal input loop (main.rs lines 81-105) -/

/-- Result of reading one terminal line into the pending message. -/
inductive LineStep where
  | exited
  | cont (conv : List Message) (acc : List Char)
  | submit (conv : List Message) (msg : List Char)
deriving DecidableEq, Repr

/-- Does the message end in `";;\n"`? -/
def endsSubmit (m : List Char) : Bool :=
  ";;\n".data.isSuffixOf m

/-- One iteration of the inner input loop: `read_line` appends `line`
(terminal lines include their trailing newline) to the accumulator,
then the command match runs on the whole accumulated message, then the
`ends_with(";;\n")` loop condition is re-checked. -/
def inputStep (conv : List Message) (acc line : List Char) : LineStep :=
  let m := acc ++ line
  if m = "exit\n".data then .exited
  else if m = "reset".data then .cont [] []
  else if endsSubmit m then .submit conv m
  else .cont conv m

/-! Spec-side definitions and frame well-formedness -/

/-- The 6-character SSE payload prefix `"data: "`. -/
def dataPrefix : List Char := "data: ".data

/-- Modelled from the spec (§4.1): filter out frames that are empty, too
short to contain the payload prefix, or *exactly equal to* the
completion sentinel.  Stated for refinement comparison with the source's
`splitChunk`. -/
def splitChunkSpec (chunk : List Char) : List (List Char) :=
  (splitNN chunk).filter (fun r => !r.isEmpty && byteLen r ≥ 6 && !(r == sentinel))

/-- The JSON payload of a frame shaped `"data: " ++ P ++ "\n\n"`. -/
def framePayload (f : List Char) : List Char :=
  ((f.drop 6).dropLast).dropLast

/-- Does the payload decode to a response whose `choices` is nonempty
(so that `choices.remove(0)` does not panic)? -/
def checkParses (s : List Char) : Bool :=
  match parseCompletion s with
  | some r => !r.choices.isEmpty
  | none => false

/-- A *restricted* class of well-formed frames, strictly narrower than
the claim's "payload prefix, valid JSON body, blank-line delimiter":
fragmentation tolerance is provable only on it, and each extra
restriction is load-bearing (see the counterexample).  On top of the
shape `"data: " ++ payload ++ "\n\n"` it requires: ASCII text only (the
length filter counts bytes); a newline-free payload (an interior
newline changes the split); no occurrence of the sentinel text
`"[DONE]"` anywhere, in any piece (the filter tests containment); no
occurrence of the prefix text `"data: "` other than the frame's own
prefix, in any piece (the replace-all stripping sees an interior
occurrence whole only in the unsplit frame); a payload longer than the
6-byte filter threshold that decodes with a nonempty `choices` and
still decodes with one trailing newline; and no decodable proper
prefix of the payload (a decodable prefix would be consumed early by a
split).  All conditions are decidable and stated operationally over
the source's functions. -/
def RestrictedFrame (f : List Char) : Prop :=
  f = dataPrefix ++ framePayload f ++ ['\n', '\n'] ∧
  (∀ c ∈ framePayload f, c ≠ '\n') ∧
  (∀ c ∈ f, c.toNat < 128) ∧
  6 < (framePayload f).length ∧
  checkParses (framePayload f) = true ∧
  parseCompletion (framePayload f ++ ['\n']) = parseCompletion (framePayload f) ∧
  (∀ k, k < (framePayload f).length →
    (k = 0 ∨ parseCompletion ((framePayload f).take k) = none)) ∧
  (∀ k, k ≤ (framePayload f).length →
    (stripData ((framePayload f).take k) = (framePayload f).take k ∧
     stripData ((framePayload f).drop k) = (framePayload f).drop k)) ∧
  stripData (framePayload f ++ ['\n']) = framePayload f ++ ['\n'] ∧
  (∀ o, o ≤ f.length → hasSub sentinel (f.take o) = false) ∧
  (∀ k, k ≤ (framePayload f).length → hasSub sentinel ((framePayload f).drop k) = false)

/-- Split offsets at which the pipeline tolerates fragmentation for a
restricted frame: offset 0 (empty first piece), offset 6 (the dropped
piece is exactly the prefix the decoder strips anyway), or any larger
offset whose remainder before the delimiter is empty or longer than
the 6-byte filter threshold. -/
def SplitOK (f : List Char) (o : Nat) : Prop :=
  o = 0 ∨ o = 6 ∨ (6 < o ∧ (f.length - 2 ≤ o ∨ 6 < f.length - 2 - o))

instance (f : List Char) : Decidable (RestrictedFrame f) := by
  unfold RestrictedFrame; infer_instance

instance (f : List Char) (o : Nat) : Decidable (SplitOK f o) := by
  unfold SplitOK; infer_instance

/-- Concatenation of the content fragments of a delta sequence
(an absent content contributing the empty string). -/
def concatFrag (ds : List CompletionDelta) : List Char :=
  (ds.map (fun d => d.content.getD [])).flatten

/-! Helper lemmas -/

theorem stripData_dataPrefix_append (xs : List Char) :
    stripData (dataPrefix ++ xs) = stripData xs := rfl

theorem byteLen_eq_length {s : List Char} (h : ∀ c ∈ s, c.toNat < 128) :
    byteLen s = s.length := by
  induction s with
  | nil => rfl
  | cons c rest ih =>
    have hc : charBytes c = 1 := by
      unfold charBytes
      rw [if_pos (h c (by simp))]
    have hr : byteLen rest = rest.length := ih (fun x hx => h x (by simp [hx]))
    simp [byteLen] at hr ⊢
    omega

theorem splitNNAux_no_newline (xs : List Char) :
    ∀ acc, (∀ c ∈ xs, c ≠ '\n') → splitNNAux acc xs = [acc ++ xs] := by
  induction xs with
  | nil => intro acc _; simp [splitNNAux]
  | cons c rest ih =>
    intro acc h
    cases rest with
    | nil => simp [splitNNAux]
    | cons d rest2 =>
      have hc : c ≠ '\n' := h c (by simp)
      show splitNNAux acc (c :: d :: rest2) = _
      rw [splitNNAux.eq_3]
      rw [if_neg (fun hh => hc hh.1)]
      rw [ih (acc ++ [c]) (fun x hx => h x (by simp [hx]))]
      simp

theorem splitNNAux_snoc_newline (xs : List Char) :
    ∀ acc, (∀ c ∈ xs, c ≠ '\n') →
      splitNNAux acc (xs ++ ['\n']) = [acc ++ xs ++ ['\n']] := by
  induction xs with
  | nil => intro acc _; simp [splitNNAux]
  | cons c rest ih =>
    intro acc h
    have hc : c ≠ '\n' := h c (by simp)
    cases rest with
    | nil =>
      show splitNNAux acc (c :: '\n' :: []) = _
      rw [splitNNAux.eq_3]
      rw [if_neg (fun hh => hc hh.1)]
      rw [splitNNAux.eq_2]
    | cons d rest2 =>
      simp only [List.cons_append]
      rw [splitNNAux.eq_3]
      rw [if_neg (fun hh => hc hh.1)]
      have hih := ih (acc ++ [c]) (fun x hx => h x (by simp [hx]))
      simp only [List.cons_append] at hih
      rw [hih]
      simp

theorem splitNNAux_append_nn (xs : List Char) :
    ∀ acc rest, (∀ c ∈ xs, c ≠ '\n') →
      splitNNAux acc (xs ++ '\n' :: '\n' :: rest) = (acc ++ xs) :: splitNNAux [] rest := by
  induction xs with
  | nil =>
    intro acc rest _
    show splitNNAux acc ('\n' :: '\n' :: rest) = _
    rw [splitNNAux.eq_3]
    rw [if_pos ⟨rfl, rfl⟩]
    simp
  | cons c xs' ih =>
    intro acc rest h
    have hc : c ≠ '\n' := h c (by simp)
    cases xs' with
    | nil =>
      show splitNNAux acc (c :: '\n' :: '\n' :: rest) = _
      rw [splitNNAux.eq_3]
      rw [if_neg (fun hh => hc hh.1)]
      rw [splitNNAux.eq_3]
      rw [if_pos ⟨rfl, rfl⟩]
    | cons d xs'' =>
      simp only [List.cons_append]
      rw [splitNNAux.eq_3]
      rw [if_neg (fun hh => hc hh.1)]
      have hih := ih (acc ++ [c]) rest (fun x hx => h x (by simp [hx]))
      simp only [List.cons_append] at hih
      rw [hih]
      simp

theorem candidateInput_nil_pending (idx : Nat) (cand : List Char) :
    candidateInput [] idx cand = stripData cand := by
  unfold candidateInput
  simp

theorem candidateInput_pending_zero (pend cand : List Char) (h : pend ≠ []) :
    candidateInput pend 0 cand = pend ++ stripData cand := by
  unfold candidateInput
  simp [h]

theorem stepCandidate_ok (cv : List Message) (pend : List Char) (idx : Nat)
    (cand : List Char) {r : CompletionResponse} {ch : CompletionChoice}
    {cs : List CompletionChoice}
    (h1 : parseCompletion (candidateInput pend idx cand) = some r)
    (h2 : r.choices = ch :: cs) :
    stepCandidate ⟨cv, pend⟩ idx cand = .ok ⟨assemble cv r.id ch.delta, []⟩ := by
  unfold stepCandidate
  simp only [h1, h2]

theorem stepCandidate_halt (cv : List Message) (pend : List Char) (idx : Nat)
    (cand : List Char)
    (h : parseCompletion (candidateInput pend idx cand) = none) :
    stepCandidate ⟨cv, pend⟩ idx cand =
      .halt ⟨cv, pend ++ candidateInput pend idx cand⟩ := by
  unfold stepCandidate
  simp only [h]

theorem processCands_nil (st : State) (idx : Nat) :
    processCands st idx [] = some st := rfl

theorem processCands_cons_ok (st : State) (idx : Nat) (cand : List Char)
    (rest : List (List Char)) (st' : State)
    (h : stepCandidate st idx cand = .ok st') :
    processCands st idx (cand :: rest) = processCands st' (idx + 1) rest := by
  rw [processCands.eq_2, h]

theorem processCands_cons_halt (st : State) (idx : Nat) (cand : List Char)
    (rest : List (List Char)) (st' : State)
    (h : stepCandidate st idx cand = .halt st') :
    processCands st idx (cand :: rest) = some st' := by
  rw [processCands.eq_2, h]

theorem processChunks_cons (st : State) (c : List Char) (rest : List (List Char)) :
    processChunks st (c :: rest) = (processChunk st c).bind (fun s => processChunks s rest) :=
  rfl

theorem processChunk_no_candidates {c : List Char} (st : State)
    (h : splitChunk c = []) : processChunk st c = some st := by
  unfold processChunk
  rw [h]
  rfl

theorem mem_of_getLast? {l : List Message} {m : Message}
    (h : l.getLast? = some m) : m ∈ l := by
  obtain ⟨hne, heq⟩ := List.mem_getLast?_eq_getLast (Option.mem_def.2 h)
  rw [heq]
  exact List.getLast_mem hne

/-- A fresh-id delta always appends a brand-new message. -/
theorem assemble_new_of_last_ne (conv : List Message) (t : List Char)
    (d : CompletionDelta) (h : ∀ m, conv.getLast? = some m → m.id ≠ t) :
    assemble conv t d = conv ++ [⟨t, d.role.getD .assistant, d.content.getD []⟩] := by
  unfold assemble
  cases hl : conv.getLast? with
  | none => simp
  | some m =>
    have hne : m.id ≠ t := h m hl
    simp [hne]

/-- Folding same-id deltas onto a conversation ending in that id only
grows the last message's content. -/
theorem assemble_foldl_same_id (t : List Char) (ds : List CompletionDelta) :
    ∀ (conv : List Message) (r : MessageRole) (acc : List Char),
      ds.foldl (fun c d => assemble c t d) (conv ++ [⟨t, r, acc⟩]) =
        conv ++ [⟨t, r, acc ++ concatFrag ds⟩] := by
  induction ds with
  | nil => intro conv r acc; simp [concatFrag]
  | cons d ds' ih =>
    intro conv r acc
    simp only [List.foldl_cons]
    have h1 : assemble (conv ++ [⟨t, r, acc⟩]) t d =
        conv ++ [⟨t, r, acc ++ d.content.getD []⟩] := by
      unfold assemble
      rw [List.getLast?_concat]
      simp [List.dropLast_concat]
    rw [h1, ih]
    simp [concatFrag]

/-! Claim theorems -/

/-- C10: if the byte stream yields an error item partway through a
response, processing stops silently exactly as if the stream had ended
there: the remaining items are ignored, no error value is produced, and
the state — including any partially assembled assistant message —
is kept as-is.  (Models `while let Some(Ok(raw_res)) = res_stream.next()`.) -/
theorem c10_stream_error_stops_silently (st : State) (pre : List (List Char))
    (e : Unit) (rest : List StreamItem) :
    processStream st (pre.map .ok ++ .error e :: rest) =
      processStream st (pre.map .ok) := by
  induction pre generalizing st with
  | nil => rfl
  | cons c pre' ih =>
    simp only [List.map_cons, List.cons_append, processStream]
    cases processChunk st c with
    | none => rfl
    | some st' => exact ih st'

/-- C9 (code bug): the `reset` match arm compares the accumulated
message against `"reset"` without a trailing newline, but `read_line`
always appends the newline, so a submitted `reset` line arrives as
`"reset\n"`, falls through the match, and leaves the conversation
unchanged; the arm only fires on a newline-less `"reset"`, which
terminal input never produces. -/
theorem c9_reset_line_not_cleared (conv : List Message) :
    inputStep conv [] "reset\n".data = .cont conv "reset\n".data ∧
    inputStep conv [] "reset".data = .cont [] [] := by
  constructor
  · unfold inputStep
    rw [if_neg (by decide), if_neg (by decide), if_neg (by decide)]
    simp
  · unfold inputStep
    rw [if_neg (by decide), if_pos (by decide)]

/-- C8 (counterexample): a transport error at stream-open is
`unwrap`-ed in `main`, so the process panics: the turn ends in
`crashed`, not in a surviving conversation awaiting a retry. -/
theorem c8_transport_error_counterexample :
    runTurn [] "u1".data "hi".data (.error .unauthorized) =
      .crashed .unauthorized [⟨"u1".data, .user, "hi".data⟩] := rfl

/-- C8 (amended): on any transport error the turn aborts before any
assistant message is assembled — the conversation at the abort point
holds only the prior messages plus the just-pushed user message — but
the abort is a process panic (`unwrap`), not a per-turn report, so
neither the conversation nor the process survives for a retry;
401 maps to Unauthorized and 429 to the rate-limit error. -/
theorem c8_transport_error_amended (conv : List Message) (uid utext : List Char)
    (e : CompletionError) :
    runTurn conv uid utext (.error e) = .crashed e (conv ++ [⟨uid, .user, utext⟩]) ∧
    completionErrorOfStatus (some 401) = .unauthorized ∧
    completionErrorOfStatus (some 429) = .outOfTokens ∧
    completionErrorOfStatus none = .unknownRequest :=
  ⟨rfl, rfl, rfl, rfl⟩

/-- C7 (counterexample): the source filter drops any candidate
*containing* `"[DONE]"`, not only candidates exactly equal to the
sentinel: the wire sentinel frame `"data: [DONE]"` is longer than 6
bytes and differs from `"[DONE]"`, yet `splitChunk` removes it while
the spec-worded filter keeps it. -/
theorem c7_sentinel_filter_counterexample :
    splitChunk "data: [DONE]".data = [] ∧
    splitChunkSpec "data: [DONE]".data = ["data: [DONE]".data] ∧
    "data: [DONE]".data ≠ sentinel ∧
    byteLen "data: [DONE]".data > 6 := by
  refine ⟨by decide, by decide, by decide, by decide⟩

/-- C7 (amended): the splitter keeps exactly the candidates of byte
length greater than 6 that do not contain the sentinel text `"[DONE]"`
as a substring; consequently a chunk holding only the sentinel frame
yields no candidates and every loop state — conversation and
partial-frame buffer — passes through untouched. -/
theorem c7_splitter_amended :
    (∀ (chunk r : List Char),
      r ∈ splitChunk chunk ↔
        r ∈ splitNN chunk ∧ byteLen r > 6 ∧ hasSub sentinel r = false) ∧
    (∀ st : State, processChunk st "data: [DONE]\n\n".data = some st) := by
  constructor
  · intro chunk r
    unfold splitChunk keepCandidate
    rw [List.mem_filter]
    simp [and_assoc]
  · intro st
    have h : splitChunk "data: [DONE]\n\n".data = [] := by decide
    unfold processChunk
    rw [h]
    rfl

/-- C6 (code bug): the source removes *every* occurrence of
`"data: "` via `str::replace`, not just the 6-character frame prefix:
for a frame whose JSON `content` itself contains the prefix text, the
decoded content silently loses it — here the source content
`"data: x"` decodes as `"x"`. -/
theorem c6_replace_all_bug :
    stripData "data: \x7b\"id\":\"t1\",\"choices\":[\x7b\"delta\":\x7b\"content\":\"data: x\"\x7d\x7d]\x7d".data =
      "\x7b\"id\":\"t1\",\"choices\":[\x7b\"delta\":\x7b\"content\":\"x\"\x7d\x7d]\x7d".data ∧
    parseCompletion
        (stripData "data: \x7b\"id\":\"t1\",\"choices\":[\x7b\"delta\":\x7b\"content\":\"data: x\"\x7d\x7d]\x7d".data) =
      some ⟨"t1".data, [⟨⟨some "x".data, none⟩⟩]⟩ ∧
    "x".data ≠ "data: x".data := by
  refine ⟨by decide, by decide, by decide⟩

/-- C5: the partial-frame buffer is a single string and is reset to
empty by every successful decode — including one that consumed the
buffer's contents as a prefix — so after any success nothing buffered
earlier can be prepended to a later frame. -/
theorem c5_buffer_cleared_on_success (st : State) (idx : Nat) (cand : List Char)
    (st' : State) (h : stepCandidate st idx cand = .ok st') :
    st'.pending = [] ∧
    (∀ (idx2 : Nat) (cand2 : List Char),
      candidateInput st'.pending idx2 cand2 = stripData cand2) := by
  unfold stepCandidate at h
  split at h
  · split at h
    · exact absurd h (by simp)
    · cases h
      refine ⟨rfl, fun idx2 cand2 => ?_⟩
      unfold candidateInput
      simp
  · exact absurd h (by simp)

/-- C4: a delta whose turn id differs from the last message's id (or
arriving on an empty conversation) appends a brand-new message with the
delta's role (default Assistant) and its fragment as content, leaving
every existing message untouched; and in general a merge step can only
append a new last element or rewrite the current last element, so all
non-last messages are immutable. -/
theorem c4_turn_isolation :
    (∀ (conv : List Message) (t : List Char) (d : CompletionDelta),
      (assemble conv t d).dropLast = conv ∨
      ((assemble conv t d).length = conv.length ∧
        (assemble conv t d).dropLast = conv.dropLast)) ∧
    (∀ (conv : List Message) (t : List Char) (d : CompletionDelta),
      (conv.getLast?.all fun m => m.id != t) = true →
      assemble conv t d = conv ++ [⟨t, d.role.getD .assistant, d.content.getD []⟩]) := by
  constructor
  · intro conv t d
    unfold assemble
    cases hl : conv.getLast? with
    | none => left; simp [List.dropLast_concat]
    | some m =>
      by_cases hid : m.id = t
      · right
        have hconv : conv.dropLast ++ [m] = conv := by
          obtain ⟨hne, heq⟩ := List.mem_getLast?_eq_getLast (Option.mem_def.2 hl)
          rw [heq]
          exact List.dropLast_append_getLast hne
        constructor
        · simp [hid]
          conv_rhs => rw [← hconv]
          simp
        · simp [hid, List.dropLast_concat]
      · left
        simp [hid, List.dropLast_concat]
  · intro conv t d h
    apply assemble_new_of_last_ne
    intro m hm
    rw [hm] at h
    simpa using h

/-- C4 (witness): a delta with a fresh turn id on a nonempty
conversation appends a new assistant message. -/
theorem c4_turn_isolation_witness :
    assemble [⟨"u1".data, .user, "q".data⟩] "t1".data ⟨some "x".data, none⟩ =
      [⟨"u1".data, .user, "q".data⟩] ++
        [⟨"t1".data, (Option.none).getD .assistant, (some "x".data).getD []⟩] :=
  c4_turn_isolation.2 [⟨"u1".data, .user, "q".data⟩] "t1".data
    ⟨some "x".data, none⟩ (by decide)

/-- C5 (witness): a decode that succeeds by consuming the buffered
first half of a split frame leaves the buffer empty. -/
theorem c5_buffer_cleared_witness :
    (State.mk [⟨"t1".data, .assistant, "hi".data⟩] []).pending = [] ∧
    (∀ (idx2 : Nat) (cand2 : List Char),
      candidateInput (State.mk [⟨"t1".data, .assistant, "hi".data⟩] []).pending idx2 cand2 =
        stripData cand2) :=
  c5_buffer_cleared_on_success
    (State.mk [] "\x7b\"id\":\"t1\",\"choices\":[\x7b\"del".data) 0
    "ta\":\x7b\"content\":\"hi\"\x7d\x7d]\x7d".data
    (State.mk [⟨"t1".data, .assistant, "hi".data⟩] []) (by decide)

/-- C3 (counterexample): a decode failure on the first candidate of a
chunk `break`s out of the candidate loop: the second candidate of the
same chunk is a perfectly valid frame, and decoding it alone produces a
message, yet after the failing first candidate the chunk leaves the
conversation empty — the remaining candidate was never decoded. -/
theorem c3_break_counterexample :
    processChunk ⟨[], []⟩
        "data: junk!!\n\ndata: \x7b\"id\":\"t1\",\"choices\":[\x7b\"delta\":\x7b\"content\":\"hi\"\x7d\x7d]\x7d\n\n".data =
      some ⟨[], "junk!!".data⟩ ∧
    processChunk ⟨[], []⟩
        "data: \x7b\"id\":\"t1\",\"choices\":[\x7b\"delta\":\x7b\"content\":\"hi\"\x7d\x7d]\x7d\n\n".data =
      some ⟨[⟨"t1".data, .assistant, "hi".data⟩], []⟩ := by
  refine ⟨by decide, by decide⟩

/-- C3 (amended): when decoding a frame candidate fails, the
prefix-stripped text of that candidate (with the buffer's previous
contents prepended if it was the chunk's first candidate) is appended
to the partial-frame buffer and the *remaining candidates of the chunk
are skipped* (`break`); the outer loop survives and continues with the
next chunk. -/
theorem c3_decode_failure_amended (st : State) (idx : Nat) (cand : List Char)
    (rest : List (List Char))
    (h : parseCompletion (candidateInput st.pending idx cand) = none) :
    processCands st idx (cand :: rest) =
      some ⟨st.conversation, st.pending ++ candidateInput st.pending idx cand⟩ ∧
    (∀ (chunk : List Char) (chunks : List (List Char)) (st' : State),
      processChunk st chunk = some st' →
      processChunks st (chunk :: chunks) = processChunks st' chunks) := by
  constructor
  · unfold processCands stepCandidate
    rw [h]
  · intro chunk chunks st' h'
    show (processChunk st chunk).bind (fun s => processChunks s chunks) =
      processChunks st' chunks
    rw [h', Option.some_bind]

/-- C3 (witness): a failing candidate followed by another candidate
halts the chunk with the stripped text buffered. -/
theorem c3_decode_failure_witness :
    processCands ⟨[], []⟩ 0 ["data: junk!!".data, "data: x".data] =
      some ⟨[], [] ++ candidateInput [] 0 "data: junk!!".data⟩ :=
  (c3_decode_failure_amended ⟨[], []⟩ 0 "data: junk!!".data
    ["data: x".data] (by decide)).1

/-- C1 (counterexample): the claim quantifies over every starting
conversation whose *last* element lacks the turn id; if an earlier,
closed message already carries that id, folding deltas of that id
appends a second message with the same id, so the resulting
conversation does not contain exactly one such message. -/
theorem c1_merge_counterexample :
    ((List.getLast?
        ([⟨"t1".data, .assistant, "old".data⟩, ⟨"u1".data, .user, "q".data⟩] : List Message)).all
        fun m => m.id != "t1".data) = true ∧
    (assembleChunks [⟨"t1".data, .assistant, "old".data⟩, ⟨"u1".data, .user, "q".data⟩]
        "t1".data [[⟨some "x".data, none⟩]]).countP (fun m => m.id == "t1".data) = 2 := by
  refine ⟨by decide, by decide⟩

/-- C1 (amended): for every nonempty sequence of deltas sharing one
turn id, grouped arbitrarily into chunks, folded in arrival order onto
a conversation *none of whose messages* carries that id, the result is
the original conversation plus exactly one new message whose role is
the first delta's role (default Assistant) and whose content is the
concatenation of all content fragments in arrival order (absent
content contributing the empty string), independent of the chunking. -/
theorem c1_merge_amended (t : List Char) (chunks : List (List CompletionDelta))
    (conv : List Message) (d0 : CompletionDelta) (ds : List CompletionDelta)
    (hj : chunks.flatten = d0 :: ds)
    (hconv : ∀ m ∈ conv, m.id ≠ t) :
    assembleChunks conv t chunks =
      conv ++ [⟨t, d0.role.getD .assistant, concatFrag (d0 :: ds)⟩] ∧
    (assembleChunks conv t chunks).filter (fun m => m.id == t) =
      [⟨t, d0.role.getD .assistant, concatFrag (d0 :: ds)⟩] := by
  have hfold : assembleChunks conv t chunks =
      (chunks.flatten).foldl (fun c d => assemble c t d) conv := by
    unfold assembleChunks
    rw [List.foldl_flatten]
  have hmain : assembleChunks conv t chunks =
      conv ++ [⟨t, d0.role.getD .assistant, concatFrag (d0 :: ds)⟩] := by
    rw [hfold, hj]
    simp only [List.foldl_cons]
    have h1 : assemble conv t d0 =
        conv ++ [⟨t, d0.role.getD .assistant, d0.content.getD []⟩] :=
      assemble_new_of_last_ne conv t d0
        (fun m hm => hconv m (mem_of_getLast? hm))
    rw [h1, assemble_foldl_same_id]
    simp [concatFrag]
  refine ⟨hmain, ?_⟩
  rw [hmain, List.filter_append]
  have hnil : conv.filter (fun m => m.id == t) = [] := by
    rw [List.filter_eq_nil_iff]
    intro m hm
    simp [hconv m hm]
  rw [hnil]
  simp

/-- C1 (witness): two single-delta chunks with the same id merge into
one message with concatenated content. -/
theorem c1_merge_witness :
    assembleChunks [] "t1".data
        [[⟨some "Hel".data, some .assistant⟩], [⟨some "lo".data, none⟩]] =
      [] ++ [⟨"t1".data, (some MessageRole.assistant).getD .assistant,
        concatFrag [⟨some "Hel".data, some .assistant⟩, ⟨some "lo".data, none⟩]⟩] ∧
    (assembleChunks [] "t1".data
        [[⟨some "Hel".data, some .assistant⟩], [⟨some "lo".data, none⟩]]).filter
        (fun m => m.id == "t1".data) =
      [⟨"t1".data, (some MessageRole.assistant).getD .assistant,
        concatFrag [⟨some "Hel".data, some .assistant⟩, ⟨some "lo".data, none⟩]⟩] :=
  c1_merge_amended "t1".data
    [[⟨some "Hel".data, some .assistant⟩], [⟨some "lo".data, none⟩]] []
    ⟨some "Hel".data, some .assistant⟩ [⟨some "lo".data, none⟩]
    (by decide) (by simp)

/-- C2 (counterexample): fragmentation is NOT tolerated at every byte
offset of every well-formed frame.  Splitting a valid 58-byte frame at
offset 3 (the first piece, 3 bytes, is silently discarded by the
`len() > 6` filter) or at offset 50 (the remainder before the
delimiter, 6 bytes, is likewise discarded) yields a different final
state than the unsplit frame.  And even at an offset whose pieces pass
the filter, a frame whose JSON content itself contains the prefix text
`"data: "` decodes differently: unsplit, the replace-all stripping
deletes the interior occurrence; split at offset 52 — through that
occurrence — the reassembled pieces keep it intact. -/
theorem c2_fragmentation_counterexample :
    (processChunks ⟨[], []⟩
        [("data: \x7b\"id\":\"t1\",\"choices\":[\x7b\"delta\":\x7b\"content\":\"hi\"\x7d\x7d]\x7d\n\n".data).take 3,
         ("data: \x7b\"id\":\"t1\",\"choices\":[\x7b\"delta\":\x7b\"content\":\"hi\"\x7d\x7d]\x7d\n\n".data).drop 3] ≠
      processChunks ⟨[], []⟩
        ["data: \x7b\"id\":\"t1\",\"choices\":[\x7b\"delta\":\x7b\"content\":\"hi\"\x7d\x7d]\x7d\n\n".data]) ∧
    (processChunks ⟨[], []⟩
        [("data: \x7b\"id\":\"t1\",\"choices\":[\x7b\"delta\":\x7b\"content\":\"hi\"\x7d\x7d]\x7d\n\n".data).take 50,
         ("data: \x7b\"id\":\"t1\",\"choices\":[\x7b\"delta\":\x7b\"content\":\"hi\"\x7d\x7d]\x7d\n\n".data).drop 50] ≠
      processChunks ⟨[], []⟩
        ["data: \x7b\"id\":\"t1\",\"choices\":[\x7b\"delta\":\x7b\"content\":\"hi\"\x7d\x7d]\x7d\n\n".data]) ∧
    (processChunks ⟨[], []⟩
        [("data: \x7b\"id\":\"t1\",\"choices\":[\x7b\"delta\":\x7b\"content\":\"data: x\"\x7d\x7d]\x7d\n\n".data).take 52,
         ("data: \x7b\"id\":\"t1\",\"choices\":[\x7b\"delta\":\x7b\"content\":\"data: x\"\x7d\x7d]\x7d\n\n".data).drop 52] ≠
      processChunks ⟨[], []⟩
        ["data: \x7b\"id\":\"t1\",\"choices\":[\x7b\"delta\":\x7b\"content\":\"data: x\"\x7d\x7d]\x7d\n\n".data]) ∧
    6 < 52 ∧
    6 < ("data: \x7b\"id\":\"t1\",\"choices\":[\x7b\"delta\":\x7b\"content\":\"data: x\"\x7d\x7d]\x7d\n\n".data).length - 2 - 52 := by
  refine ⟨by decide, by decide, by decide, by decide, by decide⟩

/-- C2 (amended): for a frame in the restricted class — on top of
prefix, JSON payload and delimiter: ASCII, newline-free payload longer
than 6 bytes, no sentinel text anywhere, no interior occurrence of the
prefix text, trailing-newline-tolerant decode, and no decodable proper
prefix of the payload — splitting its bytes into two chunks is
tolerated: the pipeline of splitter, partial-frame buffer and decoder
produces exactly the state of the unsplit frame, at offset 0, at
offset 6, and at every offset greater than 6 whose remainder before
the delimiter is empty or longer than 6 bytes.  Outside these bounds,
and outside the restricted class, a split can lose or corrupt the
frame (see the counterexample). -/
theorem c2_fragmentation_amended (f : List Char) (o : Nat) (conv : List Message)
    (hf : RestrictedFrame f) (ho : SplitOK f o) :
    processChunks ⟨conv, []⟩ [f.take o, f.drop o] =
      processChunks ⟨conv, []⟩ [f] := by
  obtain ⟨hshape, hnl, hascii, hp6, hparse, hnltol, hpref, hstrip, hstripNl, hsentT, hsentD⟩ := hf
  set P := framePayload f with hPdef
  have h6 : dataPrefix.length = 6 := by decide
  have hPne : P ≠ [] := by
    intro hP0
    rw [hP0] at hparse
    exact absurd hparse (by decide)
  have hplen : 0 < P.length := List.length_pos.2 hPne
  have hflen : f.length = P.length + 8 := by
    rw [hshape]
    simp only [List.length_append, h6, List.length_cons, List.length_nil]
    omega
  have hparse2 : ∃ r ch cs, parseCompletion P = some r ∧ r.choices = ch :: cs := by
    unfold checkParses at hparse
    split at hparse
    next r hr =>
      cases hcs : r.choices with
      | nil => rw [hcs] at hparse; simp at hparse
      | cons ch cs => exact ⟨r, ch, cs, hr, hcs⟩
    next hr => simp at hparse
  obtain ⟨r, ch, cs, hr, hcs⟩ := hparse2
  have htake : ∀ n, 6 ≤ n → n ≤ P.length + 6 →
      f.take n = dataPrefix ++ P.take (n - 6) := by
    intro n h6n hnp
    rw [hshape, List.append_assoc, List.take_append_eq_append_take,
      List.take_of_length_le (by omega), h6, List.take_append_eq_append_take]
    have hz : n - 6 - P.length = 0 := by omega
    rw [hz]
    simp
  have hdrop : ∀ n, 6 ≤ n → n ≤ P.length + 6 →
      f.drop n = P.drop (n - 6) ++ ['\n', '\n'] := by
    intro n h6n hnp
    rw [hshape, List.append_assoc, List.drop_append_eq_append_drop,
      List.drop_of_length_le (by omega), h6, List.drop_append_eq_append_drop]
    have hz : n - 6 - P.length = 0 := by omega
    rw [hz]
    simp
  have hdpre_nonl : ∀ c ∈ dataPrefix, c ≠ '\n' := by decide
  have hbody_nonl : ∀ c ∈ dataPrefix ++ P, c ≠ '\n' := by
    intro c hc
    rcases List.mem_append.1 hc with h | h
    · exact hdpre_nonl c h
    · exact hnl c h
  have hsubf_body : dataPrefix ++ P ⊆ f := by
    intro c hc
    rw [hshape]
    exact List.mem_append_left _ hc
  have hbyteLen : ∀ (l : List Char), l ⊆ f → byteLen l = l.length := by
    intro l hsub
    exact byteLen_eq_length (fun c hc => hascii c (hsub hc))
  have hsplit_f : splitNN f = [dataPrefix ++ P, []] := by
    unfold splitNN
    rw [hshape, splitNNAux_append_nn _ _ _ hbody_nonl]
    simp [splitNNAux]
  have hbodytake : f.take (P.length + 6) = dataPrefix ++ P := by
    have ht := htake (P.length + 6) (by omega) (by omega)
    have hn : P.length + 6 - 6 = P.length := by omega
    rw [hn, List.take_length] at ht
    exact ht
  have hkeep_body : keepCandidate (dataPrefix ++ P) = true := by
    unfold keepCandidate
    have hb : byteLen (dataPrefix ++ P) = P.length + 6 := by
      rw [hbyteLen _ hsubf_body, List.length_append, h6]
      omega
    have hs : hasSub sentinel (dataPrefix ++ P) = false := by
      have := hsentT (P.length + 6) (by omega)
      rw [hbodytake] at this
      exact this
    rw [hb, hs]
    simp only [Bool.not_false, Bool.and_true, decide_eq_true_eq, gt_iff_lt]
    omega
  have hfilter_f : splitChunk f = [dataPrefix ++ P] := by
    unfold splitChunk
    rw [hsplit_f, List.filter_cons_of_pos hkeep_body,
      List.filter_cons_of_neg (by decide), List.filter_nil]
  have hstripBody : stripData (dataPrefix ++ P) = P := by
    rw [stripData_dataPrefix_append]
    have h0 := (hstrip 0 (by omega)).2
    simpa using h0
  have hstA : stepCandidate ⟨conv, []⟩ 0 (dataPrefix ++ P) =
      .ok ⟨assemble conv r.id ch.delta, []⟩ :=
    stepCandidate_ok conv [] 0 _
      (by rw [candidateInput_nil_pending, hstripBody]; exact hr) hcs
  have hproc_f : processChunk ⟨conv, []⟩ f = some ⟨assemble conv r.id ch.delta, []⟩ := by
    unfold processChunk
    rw [hfilter_f, processCands_cons_ok _ _ _ _ _ hstA, processCands_nil]
  have hRHS : processChunks ⟨conv, []⟩ [f] = some ⟨assemble conv r.id ch.delta, []⟩ := by
    rw [processChunks_cons, hproc_f, Option.some_bind]
    rfl
  rw [hRHS]
  rcases ho with ho0 | ho6eq | ⟨ho6, hoR⟩
  · -- offset 0: the first piece is empty and yields no candidates
    subst ho0
    rw [List.take_zero, List.drop_zero, processChunks_cons,
      processChunk_no_candidates _ (by decide), Option.some_bind,
      processChunks_cons, hproc_f, Option.some_bind]
    rfl
  · -- offset 6: the dropped piece is exactly the prefix, which the
    -- decoder would have stripped anyway; the payload decodes alone
    subst ho6eq
    have hA6 : f.take 6 = dataPrefix := by
      have ht := htake 6 (by omega) (by omega)
      simpa using ht
    have hB6 : f.drop 6 = P ++ ['\n', '\n'] := by
      have hd := hdrop 6 (by omega) (by omega)
      simpa using hd
    rw [hA6, hB6]
    have hPsubf : P ⊆ f := by
      intro c hc
      exact hsubf_body (List.mem_append_right _ hc)
    have hsplitP : splitNN (P ++ ['\n', '\n']) = [P, []] := by
      unfold splitNN
      rw [splitNNAux_append_nn _ _ _ hnl]
      simp [splitNNAux]
    have hkeepP : keepCandidate P = true := by
      unfold keepCandidate
      have hb : byteLen P = P.length := hbyteLen P hPsubf
      have hs : hasSub sentinel P = false := by
        have := hsentD 0 (by omega)
        simpa using this
      rw [hb, hs]
      simp only [Bool.not_false, Bool.and_true, decide_eq_true_eq, gt_iff_lt]
      omega
    have hstripP : stripData P = P := by
      have h0 := (hstrip 0 (by omega)).2
      simpa using h0
    have hstepP : stepCandidate ⟨conv, []⟩ 0 P =
        .ok ⟨assemble conv r.id ch.delta, []⟩ :=
      stepCandidate_ok conv [] 0 _
        (by rw [candidateInput_nil_pending, hstripP]; exact hr) hcs
    have hprocP : processChunk ⟨conv, []⟩ (P ++ ['\n', '\n']) =
        some ⟨assemble conv r.id ch.delta, []⟩ := by
      unfold processChunk splitChunk
      rw [hsplitP, List.filter_cons_of_pos hkeepP,
        List.filter_cons_of_neg (by decide), List.filter_nil,
        processCands_cons_ok _ _ _ _ _ hstepP, processCands_nil]
    rw [processChunks_cons, processChunk_no_candidates _ (by decide), Option.some_bind,
      processChunks_cons, hprocP, Option.some_bind]
    rfl
  · rcases hoR with hbig | hmid
    · have hcase : o = f.length - 2 ∨ o = f.length - 1 ∨ f.length ≤ o := by omega
      rcases hcase with ho2 | ho1 | hge
      · -- offset exactly at the start of the delimiter
        have hA : f.take o = dataPrefix ++ P := by
          have hoeq : o = P.length + 6 := by omega
          rw [hoeq]
          exact hbodytake
        have hB : f.drop o = ['\n', '\n'] := by
          have hd := hdrop (P.length + 6) (by omega) (by omega)
          have hn : P.length + 6 - 6 = P.length := by omega
          rw [hn, List.drop_length] at hd
          have hoeq : o = P.length + 6 := by omega
          rw [hoeq]
          simpa using hd
        rw [hA, hB]
        have hsplitA : splitNN (dataPrefix ++ P) = [dataPrefix ++ P] := by
          unfold splitNN
          rw [splitNNAux_no_newline _ _ hbody_nonl]
          simp
        have hprocA : processChunk ⟨conv, []⟩ (dataPrefix ++ P) =
            some ⟨assemble conv r.id ch.delta, []⟩ := by
          unfold processChunk splitChunk
          rw [hsplitA, List.filter_cons_of_pos hkeep_body, List.filter_nil,
            processCands_cons_ok _ _ _ _ _ hstA, processCands_nil]
        rw [processChunks_cons, hprocA, Option.some_bind, processChunks_cons,
          processChunk_no_candidates _ (by decide), Option.some_bind]
        rfl
      · -- offset one byte into the delimiter
        have hassoc : f = ((dataPrefix ++ P) ++ ['\n']) ++ ['\n'] := by
          rw [hshape]
          simp
        have hlen1 : ((dataPrefix ++ P) ++ ['\n']).length = f.length - 1 := by
          simp only [List.length_append, h6, List.length_cons, List.length_nil]
          omega
        have hA : f.take o = (dataPrefix ++ P) ++ ['\n'] := by
          conv_lhs => rw [hassoc]
          rw [ho1, ← hlen1, List.take_left]
        have hB : f.drop o = ['\n'] := by
          conv_lhs => rw [hassoc]
          rw [ho1, ← hlen1, List.drop_left]
        rw [hA, hB]
        have hsplitA : splitNN ((dataPrefix ++ P) ++ ['\n']) =
            [(dataPrefix ++ P) ++ ['\n']] := by
          unfold splitNN
          rw [splitNNAux_snoc_newline _ _ hbody_nonl]
          simp
        have hsubA : (dataPrefix ++ P) ++ ['\n'] ⊆ f := by
          rw [← hA]
          exact List.take_subset o f
        have hkeepA : keepCandidate ((dataPrefix ++ P) ++ ['\n']) = true := by
          unfold keepCandidate
          have hb : byteLen ((dataPrefix ++ P) ++ ['\n']) = P.length + 7 := by
            rw [hbyteLen _ hsubA]
            simp only [List.length_append, h6, List.length_cons, List.length_nil]
            omega
          have hs : hasSub sentinel ((dataPrefix ++ P) ++ ['\n']) = false := by
            have := hsentT o (by omega)
            rw [hA] at this
            exact this
          rw [hb, hs]
          simp only [Bool.not_false, Bool.and_true, decide_eq_true_eq, gt_iff_lt]
          omega
        have hstripA : stripData ((dataPrefix ++ P) ++ ['\n']) = P ++ ['\n'] := by
          rw [List.append_assoc, stripData_dataPrefix_append, hstripNl]
        have hstepA : stepCandidate ⟨conv, []⟩ 0 ((dataPrefix ++ P) ++ ['\n']) =
            .ok ⟨assemble conv r.id ch.delta, []⟩ :=
          stepCandidate_ok conv [] 0 _
            (by rw [candidateInput_nil_pending, hstripA, hnltol]; exact hr) hcs
        have hprocA : processChunk ⟨conv, []⟩ ((dataPrefix ++ P) ++ ['\n']) =
            some ⟨assemble conv r.id ch.delta, []⟩ := by
          unfold processChunk splitChunk
          rw [hsplitA, List.filter_cons_of_pos hkeepA, List.filter_nil,
            processCands_cons_ok _ _ _ _ _ hstepA, processCands_nil]
        rw [processChunks_cons, hprocA, Option.some_bind, processChunks_cons,
          processChunk_no_candidates _ (by decide), Option.some_bind]
        rfl
      · -- offset at or past the end: second piece empty
        rw [List.take_of_length_le hge, List.drop_of_length_le hge,
          processChunks_cons, hproc_f, Option.some_bind, processChunks_cons,
          processChunk_no_candidates _ (by decide), Option.some_bind]
        rfl
    · -- middle offsets: fragment buffered, reassembled on the next chunk
      have hk : o - 6 < P.length := by omega
      have hk1 : o - 6 ≠ 0 := by omega
      have hA : f.take o = dataPrefix ++ P.take (o - 6) :=
        htake o (by omega) (by omega)
      have hB : f.drop o = P.drop (o - 6) ++ ['\n', '\n'] :=
        hdrop o (by omega) (by omega)
      rw [hA, hB]
      have hAnonl : ∀ c ∈ dataPrefix ++ P.take (o - 6), c ≠ '\n' := by
        intro c hc
        rcases List.mem_append.1 hc with h | h
        · exact hdpre_nonl c h
        · exact hnl c (List.take_subset _ _ h)
      have hsplitA : splitNN (dataPrefix ++ P.take (o - 6)) =
          [dataPrefix ++ P.take (o - 6)] := by
        unfold splitNN
        rw [splitNNAux_no_newline _ _ hAnonl]
        simp
      have hsubA : dataPrefix ++ P.take (o - 6) ⊆ f := by
        rw [← hA]
        exact List.take_subset o f
      have hkeepA : keepCandidate (dataPrefix ++ P.take (o - 6)) = true := by
        unfold keepCandidate
        have hb : byteLen (dataPrefix ++ P.take (o - 6)) = o := by
          rw [hbyteLen _ hsubA, List.length_append, h6, List.length_take]
          omega
        have hs : hasSub sentinel (dataPrefix ++ P.take (o - 6)) = false := by
          have := hsentT o (by omega)
          rw [hA] at this
          exact this
        rw [hb, hs]
        simp only [Bool.not_false, Bool.and_true, decide_eq_true_eq, gt_iff_lt]
        omega
      have hstripA : stripData (dataPrefix ++ P.take (o - 6)) = P.take (o - 6) := by
        rw [stripData_dataPrefix_append]
        exact (hstrip (o - 6) (by omega)).1
      have hfailA : parseCompletion (candidateInput [] 0
          (dataPrefix ++ P.take (o - 6))) = none := by
        rw [candidateInput_nil_pending, hstripA]
        rcases hpref (o - 6) hk with h0 | hn
        · exact absurd h0 hk1
        · exact hn
      have hstepA := stepCandidate_halt conv [] 0 (dataPrefix ++ P.take (o - 6)) hfailA
      have hprocA : processChunk ⟨conv, []⟩ (dataPrefix ++ P.take (o - 6)) =
          some ⟨conv, [] ++ candidateInput [] 0 (dataPrefix ++ P.take (o - 6))⟩ := by
        unfold processChunk splitChunk
        rw [hsplitA, List.filter_cons_of_pos hkeepA, List.filter_nil,
          processCands_cons_halt _ _ _ _ _ hstepA]
      have hpend : ([] : List Char) ++
          candidateInput [] 0 (dataPrefix ++ P.take (o - 6)) = P.take (o - 6) := by
        rw [List.nil_append, candidateInput_nil_pending, hstripA]
      have hdropnonl : ∀ c ∈ P.drop (o - 6), c ≠ '\n' :=
        fun c hc => hnl c (List.drop_subset _ _ hc)
      have hsplitB : splitNN (P.drop (o - 6) ++ ['\n', '\n']) =
          [P.drop (o - 6), []] := by
        unfold splitNN
        rw [splitNNAux_append_nn _ _ _ hdropnonl]
        simp [splitNNAux]
      have hsubB : P.drop (o - 6) ⊆ f := by
        intro c hc
        exact hsubf_body (List.mem_append.2 (Or.inr (List.drop_subset _ _ hc)))
      have hkeepB : keepCandidate (P.drop (o - 6)) = true := by
        unfold keepCandidate
        have hb : byteLen (P.drop (o - 6)) = P.length - (o - 6) := by
          rw [hbyteLen _ hsubB, List.length_drop]
        have hs := hsentD (o - 6) (by omega)
        rw [hb, hs]
        simp only [Bool.not_false, Bool.and_true, decide_eq_true_eq, gt_iff_lt]
        omega
      have hpendne : P.take (o - 6) ≠ [] := by
        rw [Ne, List.take_eq_nil_iff]
        push_neg
        exact ⟨hk1, hPne⟩
      have hinputB : candidateInput (P.take (o - 6)) 0 (P.drop (o - 6)) = P := by
        rw [candidateInput_pending_zero _ _ hpendne, (hstrip (o - 6) (by omega)).2,
          List.take_append_drop]
      have hstepB : stepCandidate ⟨conv, P.take (o - 6)⟩ 0 (P.drop (o - 6)) =
          .ok ⟨assemble conv r.id ch.delta, []⟩ :=
        stepCandidate_ok conv _ 0 _ (by rw [hinputB]; exact hr) hcs
      have hprocB : processChunk ⟨conv, P.take (o - 6)⟩ (P.drop (o - 6) ++ ['\n', '\n']) =
          some ⟨assemble conv r.id ch.delta, []⟩ := by
        unfold processChunk splitChunk
        rw [hsplitB, List.filter_cons_of_pos hkeepB,
          List.filter_cons_of_neg (by decide), List.filter_nil,
          processCands_cons_ok _ _ _ _ _ hstepB, processCands_nil]
      rw [processChunks_cons, hprocA, Option.some_bind, hpend, processChunks_cons,
        hprocB, Option.some_bind]
      rfl

/-- C2 (witness): the 58-byte example frame split at offset 10 — mid
JSON — decodes through the buffer to the same final state as the
unsplit frame. -/
theorem c2_fragmentation_witness :
    processChunks ⟨[], []⟩
        [("data: \x7b\"id\":\"t1\",\"choices\":[\x7b\"delta\":\x7b\"content\":\"hi\"\x7d\x7d]\x7d\n\n".data).take 10,
         ("data: \x7b\"id\":\"t1\",\"choices\":[\x7b\"delta\":\x7b\"content\":\"hi\"\x7d\x7d]\x7d\n\n".data).drop 10] =
      processChunks ⟨[], []⟩
        ["data: \x7b\"id\":\"t1\",\"choices\":[\x7b\"delta\":\x7b\"content\":\"hi\"\x7d\x7d]\x7d\n\n".data] :=
  c2_fragmentation_amended
    "data: \x7b\"id\":\"t1\",\"choices\":[\x7b\"delta\":\x7b\"content\":\"hi\"\x7d\x7d]\x7d\n\n".data
    10 [] (by decide) (by decide)

end Gpterm
